import Mathlib

/-!
Verification development for the Notes-Calendar plugin (src/main.ts and the
near-identical variant src/unnamed/part_000).

The development shallowly embeds the plugin's data model and the pure logic of
its operations: the recursive folder-statistics counter, the localization
table, the settings save path, the calendar month/year renderers' bucketing
logic, the modal's sort toggling, cursor navigation, and the markdown
stripping used for note previews.  Host platform collaborators (the vault
lookup `getAbstractFileByPath`, `Date` decomposition into civil calendar
fields) are modelled explicitly where the plugin calls into them.
-/

namespace NotesCalendar

/-! ## Vault model

The host vault is a finite tree of files and folders.  A `TFile` carries a
`name`, a `path` and an `extension`; a `TFolder` carries a `name`, a `path`
and a list of `children`.  `VForest` is the (isomorphic) cons-list of entries,
kept as a mutual inductive so that all functions below are structural. -/

mutual
inductive VEntry where
  | file (name : String) (path : String) (extension : String)
  | folder (name : String) (path : String) (children : VForest)
deriving DecidableEq, Repr
inductive VForest where
  | nil
  | cons (e : VEntry) (rest : VForest)
deriving DecidableEq, Repr
end

/-- The `path` property every `TAbstractFile` exposes. -/
def pathOf : VEntry → String
  | .file _ p _ => p
  | .folder _ p _ => p

def VForest.toList : VForest → List VEntry
  | .nil => []
  | .cons e rest => e :: rest.toList

/- Modelled host API: `app.vault.getAbstractFileByPath` resolves a path to
the entry of the vault tree carrying that path (depth-first search; on a
well-formed vault paths are unique, so the traversal order is irrelevant). -/
mutual
def lookupE (p : String) (e : VEntry) : Option VEntry :=
  if pathOf e = p then some e
  else
    match e with
    | .file _ _ _ => none
    | .folder _ _ ch => lookupF p ch

def lookupF (p : String) : VForest → Option VEntry
  | .nil => none
  | .cons e rest =>
    match lookupE p e with
    | some r => some r
    | none => lookupF p rest
end

/-- One element of `stats.subfolderStats` in `countFilesInFolder`. -/
structure SubfolderStat where
  name : String
  path : String
  files : Nat
  notes : Nat
deriving DecidableEq, Repr

/-- The result record of `countFilesInFolder`. -/
structure FolderStats where
  totalFiles : Nat
  totalNotes : Nat
  subfolderStats : List SubfolderStat
deriving DecidableEq, Repr

/-- The `children.forEach` accumulation loop of `countFilesInFolder`
(src/main.ts 471–489): a file child increments `totalFiles` (and `totalNotes`
when its extension is `md`); a folder child contributes its own recursive
totals (`count1 cpath`) and is appended to `subfolderStats`. -/
def countChildren (count1 : String → FolderStats) :
    FolderStats → VForest → FolderStats
  | stats, .nil => stats
  | stats, .cons (.file _ _ ext) rest =>
      countChildren count1
        { stats with
          totalFiles := stats.totalFiles + 1,
          totalNotes := stats.totalNotes + (if ext = "md" then 1 else 0) } rest
  | stats, .cons (.folder cname cpath _) rest =>
      let subStats := count1 cpath
      countChildren count1
        { totalFiles := stats.totalFiles + subStats.totalFiles,
          totalNotes := stats.totalNotes + subStats.totalNotes,
          subfolderStats := stats.subfolderStats ++
            [⟨cname, cpath, subStats.totalFiles, subStats.totalNotes⟩] } rest

/-- Embedding of `countFilesInFolder` (src/main.ts 461–496, identical in
src/unnamed/part_000 738–773).  A failed lookup, or a lookup that returns an
entry without `children`, yields the zeroed result.  The source recurses
through the host lookup (`this.countFilesInFolder(child.path)`), so the
embedding carries a fuel parameter bounding the recursion depth; on a
well-formed vault any fuel of at least the subtree size computes the code's
value (`countFilesInFolder_stableE`). -/
def countFilesInFolder (vault : VForest) : Nat → String → FolderStats
  | 0, _ => ⟨0, 0, []⟩
  | fuel + 1, folderPath =>
    match lookupF folderPath vault with
    | none => ⟨0, 0, []⟩
    | some (.file _ _ _) => ⟨0, 0, []⟩
    | some (.folder _ _ children) =>
        countChildren (countFilesInFolder vault fuel) ⟨0, 0, []⟩ children

/- Size of a vault entry (number of entries in its subtree). -/
mutual
def esizeE : VEntry → Nat
  | .file _ _ _ => 1
  | .folder _ _ ch => esizeF ch + 1
def esizeF : VForest → Nat
  | .nil => 0
  | .cons e rest => esizeE e + esizeF rest
end

/- Well-formedness of the host vault: every entry in the tree is found by
looking up its own path.  This is the host invariant the spec appeals to
("the host file hierarchy is a tree"); it rules out duplicate paths that
would make the path-based recursion of `countFilesInFolder` revisit
entries. -/
mutual
def wfE (vault : VForest) : VEntry → Bool
  | .file n p x => lookupF p vault == some (.file n p x)
  | .folder n p ch => (lookupF p vault == some (.folder n p ch)) && wfF vault ch
def wfF (vault : VForest) : VForest → Bool
  | .nil => true
  | .cons e rest => wfE vault e && wfF vault rest
end

def wfVault (vault : VForest) : Bool := wfF vault vault

def isFileE : VEntry → Bool
  | .file _ _ _ => true
  | _ => false

def isMdFileE : VEntry → Bool
  | .file _ _ ext => ext = "md"
  | _ => false

/-- The path of a folder child, `none` for a file child. -/
def subPath? : VEntry → Option String
  | .folder _ p _ => some p
  | _ => none

/-- Children of the sample vault root folder used as a concrete instance. -/
def sampleChildren : VForest :=
  .cons (.file "x.md" "A/x.md" "md")
    (.cons (.folder "B" "A/B"
      (.cons (.file "y.txt" "A/B/y.txt" "txt") .nil)) .nil)

/-- A concrete well-formed vault: root folder `A` with a markdown file and a
subfolder `B` holding a non-markdown file. -/
def sampleVault : VForest :=
  .cons (.folder "A" "A" sampleChildren) .nil

/-! ## Localization (src/main.ts 25–74) -/

/-- The plugin's two interface languages. -/
inductive Lang where
  | en
  | zh
deriving DecidableEq, Repr

/-- One row of the `texts` table in `getLocalizedText`. -/
structure LocEntry where
  key : String
  en : String
  zh : String
deriving DecidableEq, Repr

/-- The static localization table of `getLocalizedText` (src/main.ts 26–71). -/
def texts : List LocEntry := [
  ⟨"january", "January", "一月"⟩,
  ⟨"february", "February", "二月"⟩,
  ⟨"march", "March", "三月"⟩,
  ⟨"april", "April", "四月"⟩,
  ⟨"may", "May", "五月"⟩,
  ⟨"june", "June", "六月"⟩,
  ⟨"july", "July", "七月"⟩,
  ⟨"august", "August", "八月"⟩,
  ⟨"september", "September", "九月"⟩,
  ⟨"october", "October", "十月"⟩,
  ⟨"november", "November", "十一月"⟩,
  ⟨"december", "December", "十二月"⟩,
  ⟨"files", "files", "文件"⟩,
  ⟨"notes", "notes", "笔记"⟩,
  ⟨"filesAndNotes", "files, notes", "文件，笔记"⟩,
  ⟨"totalFiles", "Total", "总计"⟩,
  ⟨"filesTotal", "files", "个文件"⟩,
  ⟨"notesTotal", "notes", "个笔记"⟩,
  ⟨"includingSubdirectories", "including subdirectories", "（包含子目录）"⟩,
  ⟨"sunday", "Sun", "日"⟩,
  ⟨"monday", "Mon", "一"⟩,
  ⟨"tuesday", "Tue", "二"⟩,
  ⟨"wednesday", "Wed", "三"⟩,
  ⟨"thursday", "Thu", "四"⟩,
  ⟨"friday", "Fri", "五"⟩,
  ⟨"saturday", "Sat", "六"⟩,
  ⟨"notesCalendar", "Notes Calendar", "笔记日历"⟩,
  ⟨"yearView", "Year View", "年视图"⟩,
  ⟨"monthView", "Month View", "月视图"⟩,
  ⟨"locatedToFile", "Located to file", "已定位到文件"⟩,
  ⟨"jumpedToMonthView", "Jumped to", "已跳转到"⟩,
  ⟨"monthViewAbbr", "month view", "月视图"⟩,
  ⟨"switchView", "Switch view", "切换视图"⟩,
  ⟨"currentView", "Current", "当前"⟩,
  ⟨"yearToMonth", "📅", "📅"⟩,
  ⟨"monthToYear", "📆", "📆"⟩,
  ⟨"switchViewTooltip", "Click to switch view (Current: {current})",
    "点击切换视图 (当前: {current})"⟩]

/-- Projection of a table row at a language (`texts[key]?.[language]`). -/
def pickLang (e : LocEntry) : Lang → String
  | .en => e.en
  | .zh => e.zh

/-- Embedding of `getLocalizedText` (src/main.ts 25–74): the lookup result is the table row projected at the language, with the key as fallback.
A missing key — and, through JavaScript falsiness of `""`, an empty table
string — falls back to the key itself. -/
def getLocalizedText (key : String) (language : Lang) : String :=
  match texts.find? (fun e => e.key == key) with
  | some e =>
    let s := pickLang e language
    if s = "" then key else s
  | none => key

/-! ## Settings store (src/main.ts 11–22, 133–144, 250–253;
src/unnamed/part_000 472–490) -/

inductive ViewType where
  | month
  | year
deriving DecidableEq, Repr

inductive SortOrder where
  | desc
  | asc
deriving DecidableEq, Repr

/-- The `NoteDatesSettings` record (src/main.ts 11–22). -/
structure NoteDatesSettings where
  showCreationDate : Bool
  showModificationDate : Bool
  dateFormat : String
  enableCalendarView : Bool
  calendarFirstDayOfWeek : Nat
  showFileCount : Bool
  calendarViewType : ViewType
  sortOrder : SortOrder
  showSubdirectoryStats : Bool
  language : Lang
deriving DecidableEq, Repr

/-- Embedding of `DEFAULT_SETTINGS` (src/main.ts 133–144). -/
def DEFAULT_SETTINGS : NoteDatesSettings :=
  ⟨true, true, "YYYY-MM-DD", true, 0, true, .year, .desc, true, .zh⟩

/-- Observable effects of one `saveSettings` call: the record handed to the
host `saveData`, and whether `updateAllFilesDisplay` ran. -/
structure SaveEffects where
  persisted : NoteDatesSettings
  displayRefreshed : Bool
deriving DecidableEq, Repr

/-- Embedding of `saveSettings` from src/main.ts (250–253): persists the settings and then
unconditionally calls `updateAllFilesDisplay`. -/
def saveSettingsMain (s : NoteDatesSettings) : SaveEffects :=
  ⟨s, true⟩

/-- Plugin state seen by the part_000 variant of `saveSettings`: the settings
record plus the `lastLanguage` tracking field set by `loadSettings`. -/
structure PluginState where
  settings : NoteDatesSettings
  lastLanguage : Lang
deriving DecidableEq, Repr

/-- Effects of the part_000 variant: persisted record, whether the display
refresh ran, and the updated `lastLanguage` tracking value. -/
structure SaveEffectsVariant where
  persisted : NoteDatesSettings
  displayRefreshed : Bool
  lastLanguage : Lang
deriving DecidableEq, Repr

/-- Embedding of `saveSettings(skipFileDisplayUpdate)` from src/unnamed/part_000
(477–490): persists, updates the `lastLanguage` tracking when the language
changed, and calls `updateAllFilesDisplay` only when the language changed and
the update was not explicitly skipped. -/
def saveSettingsVariant (st : PluginState) (skipFileDisplayUpdate : Bool) :
    SaveEffectsVariant :=
  let languageChanged := st.lastLanguage != st.settings.language
  ⟨st.settings,
    !skipFileDisplayUpdate && languageChanged,
    if languageChanged then st.settings.language else st.lastLanguage⟩

/-! ## Calendar date model (C2, C5, C6) -/

/-- Modelled host API: the proleptic-Gregorian leap-year rule JS `Date`
implements. -/
def isLeapYear (y : Int) : Bool :=
  (y % 4 == 0 && y % 100 != 0) || y % 400 == 0

/-- Modelled host API: the month length `renderMonthView` obtains from
`new Date(year, month + 1, 0).getDate()` (month 0-based, as in JS). -/
def daysInMonth (y : Int) (m : Nat) : Nat :=
  match m with
  | 1 => if isLeapYear y then 29 else 28
  | 3 | 5 | 8 | 10 => 30
  | _ => 31

/-- Modelled host API: `Date#getDay` — weekday (0 = Sunday) of a civil date
with 0-based month, by Sakamoto's method (used at the nonnegative years the
plugin renders). -/
def dayOfWeek (y : Int) (m : Nat) (d : Nat) : Nat :=
  let t : List Int := [0, 3, 2, 5, 0, 3, 5, 1, 4, 6, 2, 4]
  let y2 := if m + 1 < 3 then y - 1 else y
  (Int.emod (y2 + Int.ediv y2 4 - Int.ediv y2 100 + Int.ediv y2 400 +
    t.getD m 0 + d) 7).toNat

/-- A markdown note as the calendar sees it: the `TFile` path and
`stat.mtime`, together with the civil fields the renderer reads off
`new Date(mtime)` in the host timezone (`getFullYear`, 0-based `getMonth`,
`getDate`).  The civil fields are carried as data because the host's
epoch-to-civil conversion is timezone-dependent; the renderer consumes only
these projections. -/
structure NoteFile where
  path : String
  mtime : Int
  year : Int
  month : Nat
  day : Nat
deriving DecidableEq, Repr

/-- The `notesByDate` bucket of `renderMonthView` (src/main.ts 874–885) for
one day: notes whose modification date has the given year, month and day. -/
def notesForDay (notes : List NoteFile) (y : Int) (m d : Nat) : List NoteFile :=
  notes.filter (fun nt => nt.year == y && nt.month == m && nt.day == d)

/-- One rendered cell of the month grid: a leading empty offset cell, or a
day cell carrying the day number and its `notesByDate` bucket size (the cell
gets the `has-notes` class and one note-count badge exactly when the bucket
is non-empty). -/
inductive MonthCell where
  | empty
  | day (d : Nat) (noteCount : Nat)
deriving DecidableEq, Repr

/-- The leading-offset computation of `renderMonthView` (src/main.ts
862–868): weekday of the 1st, shifted left by one when the week starts on
Monday (Sunday wrapping to 6). -/
def monthOffset (firstDayOfWeek : Nat) (weekday : Nat) : Nat :=
  if firstDayOfWeek = 1 then (if weekday = 0 then 6 else weekday - 1)
  else weekday

/-- The cell sequence `renderMonthView` appends to the `calendar-days` grid
(src/main.ts 887–930): `monthOffset` empty cells, then one cell per day
`1..daysInMonth`. -/
def renderMonthCells (notes : List NoteFile) (firstDayOfWeek : Nat)
    (y : Int) (m : Nat) : List MonthCell :=
  List.replicate (monthOffset firstDayOfWeek (dayOfWeek y m 1)) .empty ++
    (List.range (daysInMonth y m)).map
      (fun i => .day (i + 1) (notesForDay notes y m (i + 1)).length)

/-- Whether a cell carries the `has-notes` class / note-count badge. -/
def hasBadge : MonthCell → Bool
  | .day _ k => decide (0 < k)
  | .empty => false

/-- Whether a cell is the day-`d` cell and carries a note-count badge. -/
def isBadgedDay (d : Nat) : MonthCell → Bool
  | .day d2 k => d2 == d && decide (0 < k)
  | .empty => false

/-- Number of month-grid cells marked `has-notes`. -/
def monthHasNotesCount (notes : List NoteFile) (firstDayOfWeek : Nat)
    (y : Int) (m : Nat) : Nat :=
  (renderMonthCells notes firstDayOfWeek y m).countP hasBadge

/-- The `notesByMonth` bucket of `renderYearView` (src/main.ts 1087–1100)
for one month of the cursor year. -/
def notesForMonthBucket (notes : List NoteFile) (y : Int) (m : Nat) :
    List NoteFile :=
  notes.filter (fun nt => nt.year == y && nt.month == m)

/-- The per-bucket sort of the calendar views and the date-notes modal
(src/main.ts 1102–1110, 1497–1506): JS stable `Array#sort` under the
comparator `b.stat.mtime - a.stat.mtime` (`desc`) or
`a.stat.mtime - b.stat.mtime` (`asc`).  A stable sort for a total preorder
comparator is exactly `List.mergeSort` under the corresponding `≤`. -/
def sortNotes (order : SortOrder) (l : List NoteFile) : List NoteFile :=
  match order with
  | .desc => l.mergeSort (fun a b => decide (b.mtime ≤ a.mtime))
  | .asc => l.mergeSort (fun a b => decide (a.mtime ≤ b.mtime))

/-- The note counts of the 12 month chips in the year view's month timeline
(src/main.ts 1113–1144): the size of each month's sorted bucket; the chip is
marked `has-notes` when its count is positive. -/
def yearMonthCounts (notes : List NoteFile) (order : SortOrder) (y : Int) :
    List Nat :=
  (List.range 12).map
    (fun m => (sortNotes order (notesForMonthBucket notes y m)).length)

/-- Number of year-view month chips marked `has-notes`. -/
def yearHasNotesCount (notes : List NoteFile) (order : SortOrder) (y : Int) :
    Nat :=
  (yearMonthCounts notes order y).countP (fun k => decide (0 < k))

/-- Specification-side count: distinct modification days of the given month
present among the notes. -/
def distinctDays (notes : List NoteFile) (y : Int) (m : Nat) : Nat :=
  ((notes.filter (fun nt => nt.year == y && nt.month == m)).map
    (fun nt => nt.day)).dedup.length

/-- Specification-side count: distinct modification months of the given year
present among the notes. -/
def distinctMonths (notes : List NoteFile) (y : Int) : Nat :=
  ((notes.filter (fun nt => nt.year == y)).map
    (fun nt => nt.month)).dedup.length

/-! ## Cursor navigation (C6) -/

/-- The calendar cursor (`currentDate`), as civil fields: year, 0-based
month, 1-based day. -/
structure JDate where
  year : Int
  month : Nat
  day : Nat
deriving DecidableEq, Repr

/-- Modelled host API: the year/month normalization inside `Date#setMonth` —
the month index is reduced mod 12 with the quotient carried into the year. -/
def normalizeYM (y : Int) (m : Int) : Int × Nat :=
  (y + Int.ediv m 12, (Int.emod m 12).toNat)

/-- Modelled host API: JS `Date` time-value normalization rolls a day number
past the month length into the following months.  Fuel `d` suffices because
each step removes at least one day. -/
def rollDay : Nat → Int → Nat → Nat → JDate
  | 0, y, m, d => ⟨y, m, d⟩
  | fuel + 1, y, m, d =>
    if d ≤ daysInMonth y m then ⟨y, m, d⟩
    else
      let ym := normalizeYM y ((m : Int) + 1)
      rollDay fuel ym.1 ym.2 (d - daysInMonth y m)

/-- Embedding of `navigateCalendar` (src/main.ts 1393–1408): in month view the cursor
moves by `direction` months via `Date#setMonth`; in year view by `direction`
years via `Date#setFullYear`. -/
def navigateCalendar (viewType : ViewType) (dt : JDate) (direction : Int) :
    JDate :=
  match viewType with
  | .month =>
    let ym := normalizeYM dt.year ((dt.month : Int) + direction)
    rollDay dt.day ym.1 ym.2 dt.day
  | .year => rollDay dt.day (dt.year + direction) dt.month dt.day

/-- The view-switcher cycle (src/main.ts 734–746): year → month → year. -/
def toggleViewType : ViewType → ViewType
  | .year => .month
  | .month => .year

/-- The calendar view state the switcher button manipulates. -/
structure CalendarState where
  viewType : ViewType
  currentDate : JDate
deriving DecidableEq, Repr

/-- The view-switcher click handler (src/main.ts 734–759): toggles the view
type and re-renders at the unchanged `currentDate` cursor. -/
def switchView (st : CalendarState) : CalendarState :=
  ⟨toggleViewType st.viewType, st.currentDate⟩

/-- Two notes sharing one modification timestamp (C3 counterexample data). -/
def twinNoteA : NoteFile := ⟨"a.md", 5, 2024, 0, 1⟩

def twinNoteB : NoteFile := ⟨"b.md", 5, 2024, 0, 1⟩

/-- Two notes with distinct modification timestamps (C3 witness data). -/
def earlyNote : NoteFile := ⟨"early.md", 1, 2024, 0, 1⟩

def lateNote : NoteFile := ⟨"late.md", 2, 2024, 0, 1⟩

instance : IsAntisymm NoteFile (fun a b => a.mtime < b.mtime) :=
  ⟨fun _ _ h h2 => absurd (lt_trans h h2) (lt_irrefl _)⟩

/-- A note modified on March 15, 2024 (C2 witness data). -/
def marchNote : NoteFile := ⟨"m.md", 10, 2024, 2, 15⟩

/-! ## Markdown preview stripping (C4)

The preview pipeline of `addFirstLineToTimeline` / `addFirstLineToModal`
(src/main.ts 1296–1327 and 1567–1598) applies, in order: the header
substitution, the global lazy pair replacements for bold, italic and inline
code, the link replacement keeping the link text, and `.slice(0, 100)`. -/

/-- JS regex `.` without the `s` flag: any character except a line
terminator. -/
def jsDot (c : Char) : Bool :=
  c != '\n' && c != '\r' && c != '\u2028' && c != '\u2029'

/-- The JS `\s` whitespace class (the members relevant to stripped text). -/
def jsSpace (c : Char) : Bool :=
  c == ' ' || c == '\t' || c == '\n' || c == '\r' ||
    c == '\x0b' || c == '\x0c' || c == '\u00A0' || c == '\uFEFF' ||
    c == '\u2028' || c == '\u2029'

/-- Embedding of the header substitution: strip a leading run of `#` markers and the
whitespace following it; anything not starting with `#` is unchanged. -/
def stripHeader (s : List Char) : List Char :=
  match s with
  | '#' :: _ => (s.dropWhile (fun c => c == '#')).dropWhile jsSpace
  | _ => s

/-- Does the character list start with the given delimiter? -/
def startsWithList : List Char → List Char → Bool
  | [], _ => true
  | _ :: _, [] => false
  | d :: ds, c :: rest => c == d && startsWithList ds rest

/-- Search for the earliest closing delimiter `d0 :: ds`; the lazy `(.*?)`
interior admits exactly the characters the dot matches.  Returns the
interior and the suffix after the closing delimiter. -/
def findClose (d0 : Char) (ds : List Char) :
    List Char → Option (List Char × List Char)
  | [] => none
  | c :: rest =>
    if startsWithList (d0 :: ds) (c :: rest) then
      some ([], (c :: rest).drop (ds.length + 1))
    else if jsDot c then
      match findClose d0 ds rest with
      | some (pre, post) => some (c :: pre, post)
      | none => none
    else none

/-- One global pass of the lazy pair replacement for a delimiter `D`,
replacing each delimited group by its captured interior:
each leftmost delimited pair is replaced by its interior, scanning resumes
after the match; a position with no reachable closing delimiter advances by
one character.  Fuel-structured — the input length suffices, since every
step consumes at least one character. -/
def replacePairsAux (d0 : Char) (ds : List Char) : Nat → List Char → List Char
  | 0, s => s
  | _ + 1, [] => []
  | fuel + 1, c :: rest =>
    if startsWithList (d0 :: ds) (c :: rest) then
      match findClose d0 ds ((c :: rest).drop (ds.length + 1)) with
      | some (pre, post) => pre ++ replacePairsAux d0 ds fuel post
      | none => c :: replacePairsAux d0 ds fuel rest
    else c :: replacePairsAux d0 ds fuel rest

def replacePairs (d0 : Char) (ds : List Char) (s : List Char) : List Char :=
  replacePairsAux d0 ds s.length s

/-- Scan up to the first occurrence of the stop character: the greedy
negated class `[^x]+` followed by the literal `x`.  Returns the run and the
suffix after the stop character. -/
def scanUntil (stop : Char) : List Char → Option (List Char × List Char)
  | [] => none
  | c :: rest =>
    if c == stop then some ([], rest)
    else
      match scanUntil stop rest with
      | some (run, rest2) => some (c :: run, rest2)
      | none => none

/-- Match the remainder of the link pattern after an opening bracket: a
non-empty run to `]`, a literal `(`, a non-empty run to `)`.  Returns the
link text and the suffix after the match. -/
def tryLink (s : List Char) : Option (List Char × List Char) :=
  match scanUntil ']' s with
  | none => none
  | some (text, rest1) =>
    if text.isEmpty then none
    else
      match rest1 with
      | '(' :: rest2 =>
        match scanUntil ')' rest2 with
        | none => none
        | some (url, rest3) =>
          if url.isEmpty then none else some (text, rest3)
      | _ => none

/-- One global pass of the link replacement, keeping each link's text. -/
def replaceLinksAux : Nat → List Char → List Char
  | 0, s => s
  | _ + 1, [] => []
  | fuel + 1, c :: rest =>
    if c == '[' then
      match tryLink rest with
      | some (text, after) => text ++ replaceLinksAux fuel after
      | none => c :: replaceLinksAux fuel rest
    else c :: replaceLinksAux fuel rest

def replaceLinks (s : List Char) : List Char := replaceLinksAux s.length s

/-- The backquote character (inline-code delimiter). -/
def backquote : Char := Char.ofNat 96

/-- The markdown stripping applied to a note's first non-empty line in
`addFirstLineToTimeline` and `addFirstLineToModal`: strip a leading header
marker, then bold, italic, inline code and links — in that order — then
truncate to 100 characters (`.slice(0, 100)`). -/
def stripMarkdown (s : String) : String :=
  let cs := stripHeader s.data
  let cs := replacePairs '*' ['*'] cs
  let cs := replacePairs '*' [] cs
  let cs := replacePairs backquote [] cs
  let cs := replaceLinks cs
  String.mk (cs.take 100)

/-! ## Folder statistics: supporting lemmas -/

theorem esizeE_pos : ∀ e : VEntry, 1 ≤ esizeE e
  | .file _ _ _ => by simp [esizeE]
  | .folder _ _ _ => by simp [esizeE]

theorem mem_toList_esize : ∀ (ch : VForest) (e : VEntry),
    e ∈ ch.toList → esizeE e ≤ esizeF ch
  | .nil, e, h => by simp [VForest.toList] at h
  | .cons c rest, e, h => by
    simp only [VForest.toList, List.mem_cons] at h
    rcases h with rfl | h
    · simp [esizeF]
    · have := mem_toList_esize rest e h
      simp [esizeF]; omega

theorem wfF_mem : ∀ (vault ch : VForest) (e : VEntry),
    wfF vault ch = true → e ∈ ch.toList → wfE vault e = true
  | _, .nil, e, _, h => by simp [VForest.toList] at h
  | vault, .cons c rest, e, hwf, h => by
    simp only [wfF, Bool.and_eq_true] at hwf
    simp only [VForest.toList, List.mem_cons] at h
    rcases h with rfl | h
    · exact hwf.1
    · exact wfF_mem vault rest e hwf.2 h

mutual
theorem wf_lookupE (vault : VForest) (p : String) :
    ∀ (e r : VEntry), wfE vault e = true → lookupE p e = some r →
      wfE vault r = true
  | .file n q x, r, hwf, hl => by
    rw [lookupE] at hl
    split at hl
    · cases hl; exact hwf
    · cases hl
  | .folder n q ch, r, hwf, hl => by
    rw [lookupE] at hl
    split at hl
    · cases hl; exact hwf
    · simp only [wfE, Bool.and_eq_true] at hwf
      exact wf_lookupF vault p ch r hwf.2 hl

theorem wf_lookupF (vault : VForest) (p : String) :
    ∀ (ch : VForest) (r : VEntry), wfF vault ch = true → lookupF p ch = some r →
      wfE vault r = true
  | .nil, r, _, hl => by simp [lookupF] at hl
  | .cons e rest, r, hwf, hl => by
    simp only [wfF, Bool.and_eq_true] at hwf
    rw [lookupF] at hl
    cases he : lookupE p e with
    | some r2 =>
      rw [he] at hl
      have hr : r2 = r := by simpa using hl
      subst hr
      exact wf_lookupE vault p e r2 hwf.1 he
    | none =>
      rw [he] at hl
      exact wf_lookupF vault p rest r hwf.2 (by simpa using hl)
end

/- The two fuel arguments of `countFilesInFolder` are irrelevant on a
well-formed vault once both are at least the size of the looked-up subtree. -/
mutual
theorem countFilesInFolder_stableE (vault : VForest) :
    ∀ (e : VEntry), wfE vault e = true → ∀ (f₁ f₂ : Nat),
      esizeE e ≤ f₁ → esizeE e ≤ f₂ →
      countFilesInFolder vault f₁ (pathOf e) = countFilesInFolder vault f₂ (pathOf e)
  | .file n p x, hwf, f₁, f₂, h₁, h₂ => by
    simp only [wfE, beq_iff_eq] at hwf
    simp only [esizeE] at h₁ h₂
    obtain ⟨a, rfl⟩ : ∃ a, f₁ = a + 1 := ⟨f₁ - 1, by omega⟩
    obtain ⟨b, rfl⟩ : ∃ b, f₂ = b + 1 := ⟨f₂ - 1, by omega⟩
    simp [countFilesInFolder, pathOf, hwf]
  | .folder n p ch, hwf, f₁, f₂, h₁, h₂ => by
    simp only [wfE, Bool.and_eq_true, beq_iff_eq] at hwf
    simp only [esizeE] at h₁ h₂
    obtain ⟨a, rfl⟩ : ∃ a, f₁ = a + 1 := ⟨f₁ - 1, by omega⟩
    obtain ⟨b, rfl⟩ : ∃ b, f₂ = b + 1 := ⟨f₂ - 1, by omega⟩
    simp only [countFilesInFolder, pathOf, hwf.1]
    exact countFilesInFolder_stableF vault ch hwf.2 a b (by omega) (by omega) _

theorem countFilesInFolder_stableF (vault : VForest) :
    ∀ (ch : VForest), wfF vault ch = true → ∀ (a b : Nat),
      esizeF ch ≤ a → esizeF ch ≤ b → ∀ (s : FolderStats),
      countChildren (countFilesInFolder vault a) s ch =
        countChildren (countFilesInFolder vault b) s ch
  | .nil, _, a, b, _, _, s => by simp [countChildren]
  | .cons (.file n p x) rest, hwf, a, b, h₁, h₂, s => by
    simp only [wfF, Bool.and_eq_true] at hwf
    simp only [esizeF, esizeE] at h₁ h₂
    simp only [countChildren]
    exact countFilesInFolder_stableF vault rest hwf.2 a b (by omega) (by omega) _
  | .cons (.folder cn cp cch) rest, hwf, a, b, h₁, h₂, s => by
    simp only [wfF, Bool.and_eq_true] at hwf
    simp only [esizeF] at h₁ h₂
    have hc := countFilesInFolder_stableE vault (.folder cn cp cch) hwf.1 a b
      (by omega) (by omega)
    simp only [pathOf] at hc
    simp only [countChildren, hc]
    exact countFilesInFolder_stableF vault rest hwf.2 a b
      (by have := esizeE_pos (.folder cn cp cch); omega)
      (by have := esizeE_pos (.folder cn cp cch); omega) _
end

theorem countChildren_totalFiles (count1 : String → FolderStats) :
    ∀ (ch : VForest) (s : FolderStats),
      (countChildren count1 s ch).totalFiles =
        s.totalFiles + ch.toList.countP isFileE +
          ((ch.toList.filterMap subPath?).map
            (fun cp => (count1 cp).totalFiles)).sum
  | .nil, s => by simp [countChildren, VForest.toList]
  | .cons (.file n p x) rest, s => by
    have ih := countChildren_totalFiles count1 rest
    simp [countChildren, ih, VForest.toList, subPath?, isFileE]
    omega
  | .cons (.folder cn cp cch) rest, s => by
    have ih := countChildren_totalFiles count1 rest
    simp [countChildren, ih, VForest.toList, subPath?, isFileE]
    omega

theorem countChildren_totalNotes (count1 : String → FolderStats) :
    ∀ (ch : VForest) (s : FolderStats),
      (countChildren count1 s ch).totalNotes =
        s.totalNotes + ch.toList.countP isMdFileE +
          ((ch.toList.filterMap subPath?).map
            (fun cp => (count1 cp).totalNotes)).sum
  | .nil, s => by simp [countChildren, VForest.toList]
  | .cons (.file n p x) rest, s => by
    have ih := countChildren_totalNotes count1 rest
    by_cases hx : x = "md" <;>
      first
      | (simp [countChildren, ih, VForest.toList, subPath?, isMdFileE, hx]
         omega)
      | simp [countChildren, ih, VForest.toList, subPath?, isMdFileE, hx]
  | .cons (.folder cn cp cch) rest, s => by
    have ih := countChildren_totalNotes count1 rest
    simp [countChildren, ih, VForest.toList, subPath?, isMdFileE]
    omega

/-- C1: folder statistics are additive.  On a well-formed vault, for any path
that resolves to a folder, `countFilesInFolder` returns exactly the number of
direct file children plus the recursive totals of the direct subfolder
children (the code's recursive call `countFilesInFolder(child.path)`), and
likewise for `totalNotes` with direct `md` children. -/
theorem countFilesInFolder_additive
    (vault : VForest) (fuel : Nat) (p n fp : String) (ch : VForest)
    (hwf : wfVault vault = true)
    (hlk : lookupF p vault = some (.folder n fp ch))
    (hfuel : esizeE (.folder n fp ch) ≤ fuel) :
    (countFilesInFolder vault fuel p).totalFiles =
        ch.toList.countP isFileE +
          ((ch.toList.filterMap subPath?).map
            (fun cp => (countFilesInFolder vault fuel cp).totalFiles)).sum ∧
    (countFilesInFolder vault fuel p).totalNotes =
        ch.toList.countP isMdFileE +
          ((ch.toList.filterMap subPath?).map
            (fun cp => (countFilesInFolder vault fuel cp).totalNotes)).sum := by
  have hwfe : wfE vault (.folder n fp ch) = true :=
    wf_lookupF vault p vault (.folder n fp ch) hwf hlk
  have hwch : wfF vault ch = true := by
    simp only [wfE, Bool.and_eq_true] at hwfe
    exact hwfe.2
  simp only [esizeE] at hfuel
  obtain ⟨f, rfl⟩ : ∃ f, fuel = f + 1 := ⟨fuel - 1, by omega⟩
  have hstep : countFilesInFolder vault (f + 1) p =
      countChildren (countFilesInFolder vault f) ⟨0, 0, []⟩ ch := by
    simp [countFilesInFolder, hlk]
  have hstab : ∀ cp ∈ ch.toList.filterMap subPath?,
      countFilesInFolder vault f cp = countFilesInFolder vault (f + 1) cp := by
    intro cp hcp
    obtain ⟨c, hc, hsub⟩ := List.mem_filterMap.mp hcp
    obtain ⟨cn, cch, rfl⟩ : ∃ cn cch, c = .folder cn cp cch := by
      cases c with
      | file _ _ _ => simp [subPath?] at hsub
      | folder cn q cch =>
        simp only [subPath?, Option.some_inj] at hsub
        exact ⟨cn, cch, by rw [hsub]⟩
    have hwfc := wfF_mem vault ch _ hwch hc
    have hsz := mem_toList_esize ch _ hc
    have := countFilesInFolder_stableE vault (.folder cn cp cch) hwfc f (f + 1)
      (by omega) (by omega)
    simpa only [pathOf] using this
  constructor
  · have h2 : List.map (fun cp => (countFilesInFolder vault f cp).totalFiles)
        (ch.toList.filterMap subPath?) =
        List.map (fun cp => (countFilesInFolder vault (f + 1) cp).totalFiles)
          (ch.toList.filterMap subPath?) :=
      List.map_congr_left (fun cp h => by rw [hstab cp h])
    rw [hstep, countChildren_totalFiles, h2]
    simp
  · have h2 : List.map (fun cp => (countFilesInFolder vault f cp).totalNotes)
        (ch.toList.filterMap subPath?) =
        List.map (fun cp => (countFilesInFolder vault (f + 1) cp).totalNotes)
          (ch.toList.filterMap subPath?) :=
      List.map_congr_left (fun cp h => by rw [hstab cp h])
    rw [hstep, countChildren_totalNotes, h2]
    simp

/-- Concrete instance of `countFilesInFolder_additive` on `sampleVault`. -/
theorem countFilesInFolder_additive_witness :
    (countFilesInFolder sampleVault 4 "A").totalFiles =
        sampleChildren.toList.countP isFileE +
          ((sampleChildren.toList.filterMap subPath?).map
            (fun cp => (countFilesInFolder sampleVault 4 cp).totalFiles)).sum ∧
    (countFilesInFolder sampleVault 4 "A").totalNotes =
        sampleChildren.toList.countP isMdFileE +
          ((sampleChildren.toList.filterMap subPath?).map
            (fun cp => (countFilesInFolder sampleVault 4 cp).totalNotes)).sum :=
  countFilesInFolder_additive sampleVault 4 "A" "A" "A" sampleChildren
    (by decide) (by decide) (by decide)

/-- C9: a failed lookup, or a lookup that does not produce a folder, yields
the zeroed statistics record; the function is total, so no error reaches the
caller. -/
theorem countFilesInFolder_failSoft (vault : VForest) (p : String) (fuel : Nat)
    (h : lookupF p vault = none ∨ ∃ n pa x, lookupF p vault = some (.file n pa x)) :
    countFilesInFolder vault fuel p = ⟨0, 0, []⟩ := by
  cases fuel with
  | zero => rfl
  | succ f =>
    rcases h with h | ⟨n, pa, x, h⟩ <;> simp [countFilesInFolder, h]

/-- Concrete instance of `countFilesInFolder_failSoft`: lookup on the empty
vault fails and the zeroed record is returned. -/
theorem countFilesInFolder_failSoft_witness :
    countFilesInFolder .nil 3 "missing" = ⟨0, 0, []⟩ :=
  countFilesInFolder_failSoft .nil "missing" 3 (Or.inl (by decide))

theorem countChildren_inv (count1 : String → FolderStats)
    (hc : ∀ q, (count1 q).totalNotes ≤ (count1 q).totalFiles) :
    ∀ (ch : VForest) (s : FolderStats),
      s.totalNotes ≤ s.totalFiles →
      (∀ fs ∈ s.subfolderStats, fs.notes ≤ fs.files) →
      (countChildren count1 s ch).totalNotes ≤
          (countChildren count1 s ch).totalFiles ∧
        ∀ fs ∈ (countChildren count1 s ch).subfolderStats, fs.notes ≤ fs.files
  | .nil, s, h1, h2 => by simpa [countChildren] using ⟨h1, h2⟩
  | .cons (.file n p x) rest, s, h1, h2 => by
    simp only [countChildren]
    exact countChildren_inv count1 hc rest _
      (by dsimp; split <;> omega) (by dsimp; exact h2)
  | .cons (.folder cn cp cch) rest, s, h1, h2 => by
    simp only [countChildren]
    refine countChildren_inv count1 hc rest _ (by dsimp; have := hc cp; omega) ?_
    dsimp
    intro fs hfs
    rcases List.mem_append.mp hfs with hfs | hfs
    · exact h2 fs hfs
    · simp only [List.mem_singleton] at hfs
      subst hfs
      exact hc cp

/-- C10: `countFilesInFolder` always returns `totalNotes ≤ totalFiles`
(both are naturals, so `0 ≤ totalNotes` is inherent to the embedding), and
every recorded subfolder entry likewise satisfies `notes ≤ files` — for every
vault, fuel and path. -/
theorem countFilesInFolder_invariant :
    ∀ (fuel : Nat) (vault : VForest) (p : String),
      (countFilesInFolder vault fuel p).totalNotes ≤
          (countFilesInFolder vault fuel p).totalFiles ∧
        ∀ fs ∈ (countFilesInFolder vault fuel p).subfolderStats,
          fs.notes ≤ fs.files
  | 0, vault, p => by simp [countFilesInFolder]
  | fuel + 1, vault, p => by
    cases hl : lookupF p vault with
    | none => simp [countFilesInFolder, hl]
    | some e =>
      cases e with
      | file n pa x => simp [countFilesInFolder, hl]
      | folder n pa ch =>
        simp only [countFilesInFolder, hl]
        exact countChildren_inv (countFilesInFolder vault fuel)
          (fun q => (countFilesInFolder_invariant fuel vault q).1) ch _
          (by simp) (by simp)

/-! ## Localization theorems -/

/-- C8: localization lookup is a total pure function: a key present in the
table resolves to its table entry for either language, and that entry is a
non-empty string; an absent key is returned verbatim, never an error. -/
theorem getLocalizedText_total (key : String) (lang : Lang) :
    (texts.find? (fun e => e.key == key) = none →
        getLocalizedText key lang = key) ∧
    ∀ e, texts.find? (fun e2 => e2.key == key) = some e →
      getLocalizedText key lang = pickLang e lang ∧ pickLang e lang ≠ "" := by
  constructor
  · intro h
    simp [getLocalizedText, h]
  · intro e he
    have hmem : e ∈ texts := List.mem_of_find?_eq_some he
    have hall : ∀ x ∈ texts, x.en ≠ "" ∧ x.zh ≠ "" := by decide
    have hne : pickLang e lang ≠ "" := by
      cases lang with
      | en => simpa [pickLang] using (hall e hmem).1
      | zh => simpa [pickLang] using (hall e hmem).2
    simp [getLocalizedText, he, hne]

/-- Concrete instance of `getLocalizedText_total`: a present key in both
languages and an absent key. -/
theorem getLocalizedText_total_witness :
    getLocalizedText "march" .en = "March" ∧ ("March" : String) ≠ "" ∧
    getLocalizedText "nosuchkey" .zh = "nosuchkey" := by
  have h := getLocalizedText_total "march" Lang.en
  have h2 := getLocalizedText_total "nosuchkey" Lang.zh
  have h3 := h.2 ⟨"march", "March", "三月"⟩ (by decide)
  exact ⟨by simpa [pickLang] using h3.1, by decide, h2.1 (by decide)⟩

/-! ## Settings-save theorems -/

/-- C7 counterexample: in src/main.ts, a save after mutating only the sort
order (language untouched) still triggers `updateAllFilesDisplay`, refuting
"a save after mutating any other setting leaves the file-explorer display
untouched". -/
theorem saveSettings_refresh_counterexample :
    ¬ ((saveSettingsMain
        { DEFAULT_SETTINGS with sortOrder := .asc }).displayRefreshed = false) := by
  decide

/-- C7 amended: in the src/unnamed/part_000 variant, `saveSettings` persists
the settings and (with the default `skipFileDisplayUpdate = false`) triggers
the file-display refresh if and only if the language changed since the last
save; the src/main.ts variant persists and triggers the refresh
unconditionally on every save. -/
theorem saveSettings_refresh_policy :
    (∀ (st : PluginState) (skip : Bool),
        (saveSettingsVariant st skip).persisted = st.settings) ∧
    (∀ st : PluginState,
        (saveSettingsVariant st false).displayRefreshed = true ↔
          st.lastLanguage ≠ st.settings.language) ∧
    (∀ s : NoteDatesSettings,
        (saveSettingsMain s).persisted = s ∧
          (saveSettingsMain s).displayRefreshed = true) := by
  refine ⟨fun st skip => rfl, fun st => ?_, fun s => ⟨rfl, rfl⟩⟩
  simp [saveSettingsVariant, bne_iff_ne]

/-! ## Calendar rendering theorems (C2, C5) -/

theorem countP_range_mem (ds : List Nat) (D : Nat) (h : ∀ d ∈ ds, d < D) :
    (List.range D).countP (fun i => decide (i ∈ ds)) = ds.dedup.length := by
  rw [List.countP_eq_length_filter]
  have hnd : ((List.range D).filter (fun i => decide (i ∈ ds))).Nodup :=
    List.Nodup.filter _ (List.nodup_range D)
  rw [← List.toFinset_card_of_nodup hnd, ← List.card_toFinset]
  congr 1
  ext a
  simp only [List.mem_toFinset, List.mem_filter, List.mem_range,
    decide_eq_true_eq]
  exact ⟨fun hx => hx.2, fun hx => ⟨h a hx, hx⟩⟩

theorem countP_range_mem_shift (ds : List Nat) (D : Nat)
    (h : ∀ d ∈ ds, 1 ≤ d ∧ d ≤ D) :
    (List.range D).countP (fun i => decide ((i + 1) ∈ ds)) = ds.dedup.length := by
  rw [List.countP_eq_length_filter]
  have hnd : ((List.range D).filter (fun i => decide ((i + 1) ∈ ds))).Nodup :=
    List.Nodup.filter _ (List.nodup_range D)
  rw [← List.toFinset_card_of_nodup hnd, ← List.card_toFinset]
  apply Finset.card_bij (fun a _ => a + 1)
  · intro a ha
    simp only [List.mem_toFinset, List.mem_filter, List.mem_range,
      decide_eq_true_eq] at ha ⊢
    exact ha.2
  · intro a _ b _ hab
    omega
  · intro b hb
    simp only [List.mem_toFinset] at hb
    have hbd := h b hb
    refine ⟨b - 1, ?_, by omega⟩
    simp only [List.mem_toFinset, List.mem_filter, List.mem_range,
      decide_eq_true_eq]
    constructor
    · omega
    · have hb1 : b - 1 + 1 = b := by omega
      rw [hb1]; exact hb

theorem countP_range_single (g : Nat → Bool) (d D : Nat) (h1 : 1 ≤ d) (h2 : d ≤ D) :
    (List.range D).countP (fun i => (i + 1 == d) && g (i + 1)) =
      if g d then 1 else 0 := by
  induction D with
  | zero => omega
  | succ D ih =>
    rw [List.range_succ, List.countP_append]
    by_cases hd : d = D + 1
    · subst hd
      have hz : (List.range D).countP (fun i => (i + 1 == D + 1) && g (i + 1)) = 0 :=
        List.countP_eq_zero.mpr (by
          intro i hi hx
          simp only [List.mem_range] at hi
          simp only [Bool.and_eq_true, beq_iff_eq] at hx
          omega)
      rw [hz]
      simp [List.countP_cons]
    · have hdD : d ≤ D := by omega
      rw [ih hdD]
      have hx : ((D + 1 == d) && g (D + 1)) = false := by
        have hne : (D + 1 == d) = false := by
          simp only [beq_eq_false_iff_ne, ne_eq]
          omega
        rw [hne, Bool.false_and]
      simp [List.countP_cons, hx]

theorem notesForDay_length_pos (notes : List NoteFile) (y : Int) (m d : Nat) :
    0 < (notesForDay notes y m d).length ↔
      ∃ nt ∈ notes, nt.year = y ∧ nt.month = m ∧ nt.day = d := by
  rw [List.length_pos_iff_exists_mem]
  simp only [notesForDay, List.mem_filter, Bool.and_eq_true, beq_iff_eq]
  constructor
  · rintro ⟨nt, hmem, ⟨hy, hm⟩, hd⟩
    exact ⟨nt, hmem, hy, hm, hd⟩
  · rintro ⟨nt, hmem, hy, hm, hd⟩
    exact ⟨nt, hmem, ⟨hy, hm⟩, hd⟩

theorem notesForDay_mem_days (notes : List NoteFile) (y : Int) (m d : Nat) :
    0 < (notesForDay notes y m d).length ↔
      d ∈ (notes.filter (fun nt => nt.year == y && nt.month == m)).map
        (fun nt => nt.day) := by
  rw [notesForDay_length_pos]
  simp only [List.mem_map, List.mem_filter, Bool.and_eq_true, beq_iff_eq]
  constructor
  · rintro ⟨nt, hmem, hy, hm, hd⟩
    exact ⟨nt, ⟨hmem, hy, hm⟩, hd⟩
  · rintro ⟨nt, ⟨hmem, hy, hm⟩, hd⟩
    exact ⟨nt, hmem, hy, hm, hd⟩

theorem sortNotes_length (order : SortOrder) (l : List NoteFile) :
    (sortNotes order l).length = l.length := by
  cases order <;> simp [sortNotes]

/-- C2: for every note set and cursor, the number of month-grid day cells
marked `has-notes` equals the number of distinct modification days of that
month present among the notes, and the number of year-view month chips
marked `has-notes` equals the number of distinct modification months of that
year — given the host `Date` guarantees that decoded days lie in
`1..daysInMonth` and decoded months in `0..11`. -/
theorem renderCounts_distinct
    (notes : List NoteFile) (fdw : Nat) (y : Int) (m : Nat)
    (order : SortOrder) (yy : Int)
    (hdm : ∀ nt ∈ notes, nt.year = y → nt.month = m →
        1 ≤ nt.day ∧ nt.day ≤ daysInMonth y m)
    (hmm : ∀ nt ∈ notes, nt.year = yy → nt.month < 12) :
    monthHasNotesCount notes fdw y m = distinctDays notes y m ∧
    yearHasNotesCount notes order yy = distinctMonths notes yy := by
  constructor
  · unfold monthHasNotesCount renderMonthCells
    rw [List.countP_append, List.countP_map]
    have hz : (List.replicate (monthOffset fdw (dayOfWeek y m 1))
        MonthCell.empty).countP hasBadge = 0 :=
      List.countP_eq_zero.mpr (by
        intro c hc
        rw [List.eq_of_mem_replicate hc]
        simp [hasBadge])
    rw [hz, Nat.zero_add]
    unfold distinctDays
    rw [List.countP_congr (fun i _ => by
      show (hasBadge ((fun i => MonthCell.day (i + 1)
        ((notesForDay notes y m (i + 1)).length)) i)) = true ↔
        (fun i => decide ((i + 1) ∈ (notes.filter
          (fun nt => nt.year == y && nt.month == m)).map
            (fun nt => nt.day))) i = true
      simp only [hasBadge, decide_eq_true_eq]
      exact notesForDay_mem_days notes y m (i + 1))]
    apply countP_range_mem_shift
    intro d hd
    simp only [List.mem_map, List.mem_filter, Bool.and_eq_true,
      beq_iff_eq] at hd
    obtain ⟨nt, ⟨hmem, hy, hm⟩, hdj⟩ := hd
    subst hdj
    exact hdm nt hmem hy hm
  · unfold yearHasNotesCount yearMonthCounts
    rw [List.countP_map]
    unfold distinctMonths
    rw [List.countP_congr (fun i _ => by
      show ((fun k => decide (0 < k)) ((fun m2 => (sortNotes order
        (notesForMonthBucket notes yy m2)).length) i)) = true ↔
        (fun i => decide (i ∈ (notes.filter
          (fun nt => nt.year == yy)).map (fun nt => nt.month))) i = true
      simp only [decide_eq_true_eq, sortNotes_length]
      rw [List.length_pos_iff_exists_mem]
      simp only [notesForMonthBucket, List.mem_filter, List.mem_map,
        Bool.and_eq_true, beq_iff_eq]
      constructor
      · rintro ⟨nt, hmem, hy, hm⟩
        exact ⟨nt, ⟨hmem, hy⟩, hm⟩
      · rintro ⟨nt, ⟨hmem, hy⟩, hm⟩
        exact ⟨nt, hmem, hy, hm⟩)]
    apply countP_range_mem
    intro d hd
    simp only [List.mem_map, List.mem_filter, Bool.and_eq_true,
      beq_iff_eq] at hd
    obtain ⟨nt, ⟨hmem, hy⟩, hdj⟩ := hd
    subst hdj
    exact hmm nt hmem hy

/-- C5: in month view for March 2024 with first day of week Monday, the
first rendered cell is an empty offset cell if and only if March 1, 2024 is
not a Monday (it is a Friday, so the offset is 4), and exactly one
note-count badge sits on the day-15 cell if and only if at least one note
was modified on March 15, 2024. -/
theorem renderMonthView_march2024 (notes : List NoteFile) :
    ((renderMonthCells notes 1 2024 2).head? = some .empty ↔
      dayOfWeek 2024 2 1 ≠ 1) ∧
    ((renderMonthCells notes 1 2024 2).countP (isBadgedDay 15) = 1 ↔
      ∃ nt ∈ notes, nt.year = 2024 ∧ nt.month = 2 ∧ nt.day = 15) := by
  have hoff : monthOffset 1 (dayOfWeek 2024 2 1) = 4 := by decide
  have hdim : daysInMonth 2024 2 = 31 := by decide
  constructor
  · constructor
    · intro _
      decide
    · intro _
      rw [renderMonthCells, hoff]
      rfl
  · rw [renderMonthCells, hoff, hdim, List.countP_append, List.countP_map]
    have hz : (List.replicate 4 MonthCell.empty).countP (isBadgedDay 15) = 0 := by
      decide
    rw [hz, Nat.zero_add]
    rw [List.countP_congr (fun i _ => by
      show (isBadgedDay 15 ((fun i => MonthCell.day (i + 1)
        ((notesForDay notes 2024 2 (i + 1)).length)) i)) = true ↔
        ((fun i => (i + 1 == 15) &&
          (fun x => decide (0 < (notesForDay notes 2024 2 x).length)) (i + 1)) i) = true
      rfl)]
    rw [countP_range_single (fun x => decide (0 < (notesForDay notes 2024 2 x).length))
      15 31 (by omega) (by omega)]
    by_cases hg : 0 < (notesForDay notes 2024 2 15).length
    · have hgt : decide (0 < (notesForDay notes 2024 2 15).length) = true := by
        simpa using hg
      rw [hgt]
      exact ⟨fun _ => (notesForDay_length_pos notes 2024 2 15).mp hg,
        fun _ => rfl⟩
    · have hgf : decide (0 < (notesForDay notes 2024 2 15).length) = false := by
        simpa using hg
      rw [hgf]
      constructor
      · intro h
        have h0 : (0 : Nat) = 1 := h
        omega
      · intro h
        exact absurd ((notesForDay_length_pos notes 2024 2 15).mpr h) hg

/-- Concrete instance of `renderCounts_distinct`: one note on March 15,
2024. -/
theorem renderCounts_distinct_witness :
    monthHasNotesCount [marchNote] 1 2024 2 = distinctDays [marchNote] 2024 2 ∧
      yearHasNotesCount [marchNote] .desc 2024 = distinctMonths [marchNote] 2024 :=
  renderCounts_distinct [marchNote] 1 2024 2 .desc 2024 (by decide) (by decide)

/-! ## Sort-toggle theorems (C3) -/

theorem pairwise_mtime_lt {l : List NoteFile}
    (hle : l.Pairwise (fun a b => a.mtime ≤ b.mtime))
    (hne : l.Pairwise (fun a b => a.mtime ≠ b.mtime)) :
    l.Pairwise (fun a b => a.mtime < b.mtime) := by
  induction l with
  | nil => exact .nil
  | cons a l ih =>
    rw [List.pairwise_cons] at hle hne ⊢
    exact ⟨fun b hb => lt_of_le_of_ne (hle.1 b hb) (hne.1 b hb),
      ih hle.2 hne.2⟩

theorem sortNotes_asc_sorted (l : List NoteFile) :
    (sortNotes .asc l).Pairwise (fun a b => a.mtime ≤ b.mtime) := by
  have h : (l.mergeSort (fun a b => decide (a.mtime ≤ b.mtime))).Pairwise
      (fun a b => decide (a.mtime ≤ b.mtime) = true) :=
    List.sorted_mergeSort
      (fun a b c hab hbc => by
        simp only [decide_eq_true_eq] at hab hbc ⊢; omega)
      (fun a b => by
        simp only [Bool.or_eq_true, decide_eq_true_eq]; omega) l
  exact h.imp (fun hx => by simpa using hx)

theorem sortNotes_desc_sorted (l : List NoteFile) :
    (sortNotes .desc l).Pairwise (fun a b => b.mtime ≤ a.mtime) := by
  have h : (l.mergeSort (fun a b => decide (b.mtime ≤ a.mtime))).Pairwise
      (fun a b => decide (b.mtime ≤ a.mtime) = true) :=
    List.sorted_mergeSort
      (fun a b c hab hbc => by
        simp only [decide_eq_true_eq] at hab hbc ⊢; omega)
      (fun a b => by
        simp only [Bool.or_eq_true, decide_eq_true_eq]; omega) l
  exact h.imp (fun hx => by simpa using hx)

theorem sortNotes_perm (order : SortOrder) (l : List NoteFile) :
    List.Perm (sortNotes order l) l := by
  cases order <;> exact List.mergeSort_perm l _

/-- C3 counterexample: with two distinct notes sharing one modification
timestamp, descending-then-ascending sorting (both stable) returns the notes
in their original order, which is not the reverse of the descending order. -/
theorem sortToggle_counterexample :
    sortNotes .asc (sortNotes .desc [twinNoteA, twinNoteB]) ≠
      (sortNotes .desc [twinNoteA, twinNoteB]).reverse := by
  have h1 : sortNotes .desc [twinNoteA, twinNoteB] = [twinNoteA, twinNoteB] :=
    List.mergeSort_of_sorted (by
      simp [List.pairwise_cons, twinNoteA, twinNoteB])
  have h2 : sortNotes .asc [twinNoteA, twinNoteB] = [twinNoteA, twinNoteB] :=
    List.mergeSort_of_sorted (by
      simp [List.pairwise_cons, twinNoteA, twinNoteB])
  rw [h1, h2]
  simp [twinNoteA, twinNoteB]

/-- C3 amended: when the notes' modification timestamps are pairwise
distinct, ascending sort of the descending-sorted list is its exact reverse
(with ties, stability keeps tied notes in their relative order on both
passes, so only the timestamp sequence — not the note sequence — is
reversed). -/
theorem sortToggle_reverse (l : List NoteFile)
    (hne : l.Pairwise (fun a b => a.mtime ≠ b.mtime)) :
    sortNotes .asc (sortNotes .desc l) = (sortNotes .desc l).reverse := by
  have pd : List.Perm (sortNotes .desc l) l := sortNotes_perm .desc l
  have pa : List.Perm (sortNotes .asc (sortNotes .desc l)) (sortNotes .desc l) :=
    sortNotes_perm .asc _
  have pr : List.Perm (sortNotes .desc l).reverse (sortNotes .desc l) :=
    List.reverse_perm _
  have hsymm : ∀ {x y : NoteFile}, x.mtime ≠ y.mtime → y.mtime ≠ x.mtime :=
    fun h => h.symm
  have hne_d : (sortNotes .desc l).Pairwise (fun a b => a.mtime ≠ b.mtime) :=
    (List.Perm.pairwise_iff hsymm pd).mpr hne
  have hne_a : (sortNotes .asc (sortNotes .desc l)).Pairwise
      (fun a b => a.mtime ≠ b.mtime) :=
    (List.Perm.pairwise_iff hsymm pa).mpr hne_d
  have hne_r : (sortNotes .desc l).reverse.Pairwise
      (fun a b => a.mtime ≠ b.mtime) :=
    (List.Perm.pairwise_iff hsymm pr).mpr hne_d
  have sa := sortNotes_asc_sorted (sortNotes .desc l)
  have sr : (sortNotes .desc l).reverse.Pairwise
      (fun a b => a.mtime ≤ b.mtime) := by
    rw [List.pairwise_reverse]
    exact sortNotes_desc_sorted l
  exact List.eq_of_perm_of_sorted (pa.trans pr.symm)
    (pairwise_mtime_lt sa hne_a) (pairwise_mtime_lt sr hne_r)

/-- Concrete instance of `sortToggle_reverse` on two notes with distinct
timestamps. -/
theorem sortToggle_reverse_witness :
    sortNotes .asc (sortNotes .desc [earlyNote, lateNote]) =
      (sortNotes .desc [earlyNote, lateNote]).reverse :=
  sortToggle_reverse [earlyNote, lateNote]
    (by simp [List.pairwise_cons, earlyNote, lateNote])

/-! ## Navigation theorems (C6) -/

/-- C6 counterexample: from January 31, 2024, one month forward lands on
March 2 (JS `setMonth` keeps the time value, rolling February 31 over), not
on "same day-of-month, month shifted by one" (February 31 does not exist). -/
theorem navigateCalendar_counterexample :
    navigateCalendar .month ⟨2024, 0, 31⟩ 1 = ⟨2024, 2, 2⟩ ∧
      navigateCalendar .month ⟨2024, 0, 31⟩ 1 ≠ ⟨2024, 1, 31⟩ := by
  constructor
  · rfl
  · decide

/-- C6 amended: for direction ±1, month-view navigation moves the cursor by
exactly one calendar month (month index shifted with year carry, same
day-of-month) whenever the current day-of-month exists in the target month,
and year-view navigation moves it by exactly one calendar year whenever the
day exists in the target month of the target year; a day past the target
month's length instead rolls over, as in the counterexample.  View-type
switching always keeps the cursor unchanged. -/
theorem navigateCalendar_step (dt : JDate) (direction : Int)
    (_hdir : direction = 1 ∨ direction = -1) (hday : 1 ≤ dt.day) :
    (dt.day ≤ daysInMonth
        (normalizeYM dt.year ((dt.month : Int) + direction)).1
        (normalizeYM dt.year ((dt.month : Int) + direction)).2 →
      navigateCalendar .month dt direction =
        ⟨(normalizeYM dt.year ((dt.month : Int) + direction)).1,
          (normalizeYM dt.year ((dt.month : Int) + direction)).2, dt.day⟩) ∧
    (dt.day ≤ daysInMonth (dt.year + direction) dt.month →
      navigateCalendar .year dt direction =
        ⟨dt.year + direction, dt.month, dt.day⟩) ∧
    ∀ st : CalendarState, (switchView st).currentDate = st.currentDate := by
  obtain ⟨k, hk⟩ : ∃ k, dt.day = k + 1 := ⟨dt.day - 1, by omega⟩
  refine ⟨fun h => ?_, fun h => ?_, fun st => rfl⟩
  · simp only [navigateCalendar, hk]
    rw [hk] at h
    simp [rollDay, h]
  · simp only [navigateCalendar, hk]
    rw [hk] at h
    simp [rollDay, h]

/-- Concrete instance of `navigateCalendar_step`: mid-month cursor moves one
month and one year exactly; the switcher keeps the cursor. -/
theorem navigateCalendar_step_witness :
    navigateCalendar .month ⟨2024, 0, 15⟩ 1 = ⟨2024, 1, 15⟩ ∧
      navigateCalendar .year ⟨2024, 0, 15⟩ 1 = ⟨2025, 0, 15⟩ ∧
      (switchView ⟨.year, ⟨2024, 0, 15⟩⟩).currentDate = ⟨2024, 0, 15⟩ := by
  have h := navigateCalendar_step ⟨2024, 0, 15⟩ 1 (Or.inl rfl) (by decide)
  refine ⟨?_, ?_, h.2.2 ⟨.year, ⟨2024, 0, 15⟩⟩⟩
  · have := h.1 (by decide)
    simpa using this
  · have := h.2.1 (by decide)
    simpa using this

/-! ## Markdown stripping theorems (C4) -/

theorem stripHeader_no_hash (s : List Char) (h : ∀ c ∈ s, c ≠ '#') :
    stripHeader s = s := by
  cases s with
  | nil => rfl
  | cons c cs =>
    have hc : c ≠ '#' := h c (by simp)
    unfold stripHeader
    split
    · next heq =>
      injection heq with h1 h2
      exact absurd h1 hc
    · rfl

theorem replacePairsAux_no_delim (d0 : Char) (ds : List Char) :
    ∀ (fuel : Nat) (s : List Char), (∀ c ∈ s, c ≠ d0) →
      replacePairsAux d0 ds fuel s = s
  | 0, s, _ => rfl
  | _ + 1, [], _ => rfl
  | fuel + 1, c :: rest, h => by
    have hc : c ≠ d0 := h c (by simp)
    have hsw : startsWithList (d0 :: ds) (c :: rest) = false := by
      simp only [startsWithList, Bool.and_eq_false_iff]
      left
      simp [hc]
    simp only [replacePairsAux, hsw]
    simp only [Bool.false_eq_true, if_false]
    rw [replacePairsAux_no_delim d0 ds fuel rest (fun c2 hc2 => h c2 (by simp [hc2]))]

theorem replacePairs_no_delim (d0 : Char) (ds : List Char) (s : List Char)
    (h : ∀ c ∈ s, c ≠ d0) : replacePairs d0 ds s = s :=
  replacePairsAux_no_delim d0 ds s.length s h

theorem replaceLinksAux_no_bracket :
    ∀ (fuel : Nat) (s : List Char), (∀ c ∈ s, c ≠ '[') →
      replaceLinksAux fuel s = s
  | 0, s, _ => rfl
  | _ + 1, [], _ => rfl
  | fuel + 1, c :: rest, h => by
    have hc : c ≠ '[' := h c (by simp)
    have hcb : (c == '[') = false := by simp [hc]
    simp only [replaceLinksAux, hcb]
    simp only [Bool.false_eq_true, if_false]
    rw [replaceLinksAux_no_bracket fuel rest (fun c2 hc2 => h c2 (by simp [hc2]))]

theorem replaceLinks_no_bracket (s : List Char) (h : ∀ c ∈ s, c ≠ '[') :
    replaceLinks s = s :=
  replaceLinksAux_no_bracket s.length s h

theorem stripMarkdown_length (s : String) :
    (stripMarkdown s).data.length ≤ 100 := by
  unfold stripMarkdown
  exact List.length_take_le 100 _

/-- C4 counterexample: the substitution sequence is not idempotent — on
`"**#**x"` the bold pass yields `"#x"`, and the second application strips
the now-leading header marker, producing `"x"`. -/
theorem stripMarkdown_not_idempotent :
    stripMarkdown (stripMarkdown "**#**x") ≠ stripMarkdown "**#**x" := by
  decide

/-- C4 amended: the stripping pipeline is idempotent on every input whose
output contains none of the marker characters `#`, `*`, backquote and `[`
(in particular on fully stripped plain text); the counterexample shows the
restriction is necessary, since removing delimiters can surface a new
leading header marker. -/
theorem stripMarkdown_idempotent (s : String)
    (h : (stripMarkdown s).data.all
      (fun c => !(c == '#' || c == '*' || c == backquote || c == '[')) = true) :
    stripMarkdown (stripMarkdown s) = stripMarkdown s := by
  have hall : ∀ c ∈ (stripMarkdown s).data,
      c ≠ '#' ∧ c ≠ '*' ∧ c ≠ backquote ∧ c ≠ '[' := by
    intro c hc
    have hx := List.all_eq_true.mp h c hc
    simp only [Bool.not_eq_true', Bool.or_eq_false_iff, beq_eq_false_iff_ne] at hx
    exact ⟨hx.1.1.1, hx.1.1.2, hx.1.2, hx.2⟩
  have h1 : stripHeader (stripMarkdown s).data = (stripMarkdown s).data :=
    stripHeader_no_hash _ (fun c hc => (hall c hc).1)
  have h2 : replacePairs '*' ['*'] (stripMarkdown s).data = (stripMarkdown s).data :=
    replacePairs_no_delim _ _ _ (fun c hc => (hall c hc).2.1)
  have h3 : replacePairs '*' [] (stripMarkdown s).data = (stripMarkdown s).data :=
    replacePairs_no_delim _ _ _ (fun c hc => (hall c hc).2.1)
  have h4 : replacePairs backquote [] (stripMarkdown s).data = (stripMarkdown s).data :=
    replacePairs_no_delim _ _ _ (fun c hc => (hall c hc).2.2.1)
  have h5 : replaceLinks (stripMarkdown s).data = (stripMarkdown s).data :=
    replaceLinks_no_bracket _ (fun c hc => (hall c hc).2.2.2)
  have h6 : (stripMarkdown s).data.take 100 = (stripMarkdown s).data :=
    List.take_of_length_le (stripMarkdown_length s)
  conv_lhs => rw [stripMarkdown]
  rw [h1, h2, h3, h4, h5, h6]

/-- Concrete instance of `stripMarkdown_idempotent` on plain text. -/
theorem stripMarkdown_idempotent_witness :
    stripMarkdown (stripMarkdown "hello world") = stripMarkdown "hello world" :=
  stripMarkdown_idempotent "hello world" (by decide)

end NotesCalendar
